import Mathlib

/-!
# Verification of the alphax timeline compositing and frame-decode pipeline

Shallow embedding of the core of the `alphax` video editor engine:

* the effect model (`src/lib/engine/state/types.ts`),
* the temporal query `Compositor.get_effects_relative_to_timecode` and the
  effect-relative clock `Compositor.get_effect_current_time_relative_to_timecode`
  (compositor controller),
* the `FrameBuffer` ring buffer and the `Decoder` seek / playback / export paths
  (`src/lib/engine/controllers/controllers/video-export/parts/decoder.ts`),
* the demux backpressure delay `calculateDynamicDelay`
  (`src/lib/engine/tools/tools/demuxer.ts`).

Timestamps and timecodes are milliseconds, modelled as rationals (the decode
worker advances its clock by `1000 / timebase`, which need not be integral).
-/

namespace AlphaX

/-- Effect kinds from `state/types.ts` (`AnyEffect` is a union of these). -/
inductive EffectKind where
  | video
  | audio
  | image
  | text
deriving DecidableEq, Repr

/-- Base effect fields from `interface Effect` in `state/types.ts`, together
with the discriminating `kind`.  `start` / `«end»` are offsets within the
source media, `start_at_position` places the trimmed window on the timeline. -/
structure Effect where
  id : String
  kind : EffectKind
  start_at_position : ℚ
  duration : ℚ
  start : ℚ
  «end» : ℚ
  track : ℕ
deriving DecidableEq, Repr

/-- The transition pads `(incoming, outgoing)` of an effect.  The
`TransitionManager` supplying them
(`managers.transitionManager.getTransitionDurationPerEffect`) is not among the
sources, so the temporal query is parametrised over the pad function; an effect
referenced by no transition gets `(0, 0)`. -/
abbrev PadFn := Effect → ℚ × ℚ

/-- `Compositor.get_effects_relative_to_timecode` (compositor controller):
`effects.filter(effect => start_at_position - incoming <= timecode &&
timecode <= start_at_position + (end - start) + outgoing)`. -/
def get_effects_relative_to_timecode (pads : PadFn) (effects : List Effect)
    (timecode : ℚ) : List Effect :=
  effects.filter fun effect =>
    decide (effect.start_at_position - (pads effect).1 ≤ timecode ∧
      timecode ≤ effect.start_at_position + (effect.«end» - effect.start) + (pads effect).2)

/-- The effect-relative media time used by every decoder lookup:
`timestamp - effect.start_at_position + effect.start` (`Decoder.seek`,
`Decoder.draw_available_frames`, `Decoder.get_and_draw_decoded_frame`). -/
def effect_relative_time (effect : Effect) (timecode : ℚ) : ℚ :=
  timecode - effect.start_at_position + effect.start

/-- `Compositor.get_effect_current_time_relative_to_timecode`: the same
effect-relative time converted to seconds. -/
def get_effect_current_time_relative_to_timecode (effect : Effect) (timecode : ℚ) : ℚ :=
  (timecode - effect.start_at_position + effect.start) / 1000

/-- Moving an effect along the timeline by `d` without changing its source
trim: only `start_at_position` changes. -/
def shift_on_timeline (effect : Effect) (d : ℚ) : Effect :=
  { effect with start_at_position := effect.start_at_position + d }

/-- `queueLimit` from `calculateDynamicDelay` in `demuxer.ts`. -/
def queueLimit : ℚ := 100

/-- `maxDelay` from `calculateDynamicDelay` in `demuxer.ts`. -/
def maxDelay : ℚ := 50

/-- `minDelay` from `calculateDynamicDelay` in `demuxer.ts`. -/
def minDelay : ℚ := 0

/-- `calculateDynamicDelay` (`demuxer.ts`):
`delay = (queueSize / queueLimit) * maxDelay;
return Math.min(maxDelay, Math.max(minDelay, delay))`. -/
def calculateDynamicDelay (queueSize : ℚ) : ℚ :=
  min maxDelay (max minDelay (queueSize / queueLimit * maxDelay))

/-- `interface DecodedFrame` from `decoder.ts`.  The `frame : VideoFrame`
handle is represented by the identifying data the buffer logic actually uses;
closing a frame is observed through the lists of closed frames the operations
return. -/
structure DecodedFrame where
  timestamp : ℚ
  effect_id : String
  frame_id : ℕ
deriving DecidableEq, Repr

/-- A JS `Map` keyed by timestamps, as its entry list in iteration
(= insertion) order, values `DecodedFrame`. -/
abbrev FrameMap := List (ℚ × DecodedFrame)

/-- `Map.prototype.has`. -/
def mapHas (m : FrameMap) (k : ℚ) : Bool :=
  m.any fun p => decide (p.1 = k)

/-- `Map.prototype.get` (first entry with the key; keys are kept unique). -/
def mapGet (m : FrameMap) (k : ℚ) : Option DecodedFrame :=
  (m.find? fun p => decide (p.1 = k)).map Prod.snd

/-- `Map.prototype.set`: updates an existing key in place (keeping its
iteration position), otherwise appends. -/
def mapSet (m : FrameMap) (k : ℚ) (v : DecodedFrame) : FrameMap :=
  if mapHas m k then m.map fun p => if p.1 = k then (k, v) else p
  else m ++ [(k, v)]

/-- `Map.prototype.delete`. -/
def mapDelete (m : FrameMap) (k : ℚ) : FrameMap :=
  m.filter fun p => decide (p.1 ≠ k)

/-- `class FrameBuffer` state (`decoder.ts`): the `frames` map, the
`insertOrder` array tracking insertion order for LRU eviction, `maxSize` and
the lookup `tolerance` in ms. -/
structure FrameBuffer where
  frames : FrameMap
  insertOrder : List ℚ
  maxSize : ℕ
  tolerance : ℚ
deriving DecidableEq, Repr

/-- The `FrameBuffer` constructor:
`maxSize = Math.ceil(timebase * bufferSeconds)`,
`tolerance = (1000 / timebase) / 2` (half a frame duration); the buffer starts
empty.  `bufferSeconds` defaults to 2 at the only construction site. -/
def mkFrameBuffer (timebase : ℚ) (bufferSeconds : ℚ) : FrameBuffer where
  frames := []
  insertOrder := []
  maxSize := (⌈timebase * bufferSeconds⌉ : ℤ).toNat
  tolerance := 1000 / timebase / 2

/-- `FrameBuffer.add`: replace in place when the timestamp already has an
entry (closing the old frame); otherwise evict the oldest-inserted entry when
at capacity (closing its frame), then append.  Returns the new buffer together
with the list of frames that were closed. -/
def FrameBuffer.add (b : FrameBuffer) (f : DecodedFrame) : FrameBuffer × List DecodedFrame :=
  let ts := f.timestamp
  if mapHas b.frames ts then
    (⟨mapSet b.frames ts f, b.insertOrder, b.maxSize, b.tolerance⟩,
      (mapGet b.frames ts).toList)
  else
    let step : FrameMap × List ℚ × List DecodedFrame :=
      if b.maxSize ≤ b.frames.length then
        match b.insertOrder with
        | [] => (b.frames, [], [])
        | oldest :: rest =>
          match mapGet b.frames oldest with
          | some evicted => (mapDelete b.frames oldest, rest, [evicted])
          | none => (b.frames, rest, [])
      else (b.frames, b.insertOrder, [])
    (⟨mapSet step.1 ts f, step.2.1 ++ [ts], b.maxSize, b.tolerance⟩, step.2.2)

/-- The closest-in-tolerance scan of `FrameBuffer.get`: walk the entries in
map order keeping the entry with the strictly smallest `|ts - timestamp|`
among those with `|ts - timestamp| <= tolerance` (`closestDiff` starts at
`Infinity`, so the first in-tolerance entry is always taken). -/
def scanStep (tolerance : ℚ) (t : ℚ) (acc : Option (DecodedFrame × ℚ))
    (p : ℚ × DecodedFrame) : Option (DecodedFrame × ℚ) :=
  let diff := |p.1 - t|
  match acc with
  | none => if diff ≤ tolerance then some (p.2, diff) else none
  | some (_, bestDiff) =>
    if diff < bestDiff ∧ diff ≤ tolerance then some (p.2, diff) else acc

def closestScan (tolerance : ℚ) (t : ℚ) (m : FrameMap) : Option (DecodedFrame × ℚ) :=
  m.foldl (scanStep tolerance t) none

/-- `FrameBuffer.get`: exact hit first, otherwise the closest entry within
`tolerance`; `none` is a cache miss (the function is total — a miss is a
value, not an exception). -/
def FrameBuffer.get (b : FrameBuffer) (timestamp : ℚ) : Option DecodedFrame :=
  match mapGet b.frames timestamp with
  | some f => some f
  | none => (closestScan b.tolerance timestamp b.frames).map Prod.fst

/-- `FrameBuffer.clear`: closes every stored frame and empties the buffer. -/
def FrameBuffer.clear (b : FrameBuffer) : FrameBuffer × List DecodedFrame :=
  (⟨[], [], b.maxSize, b.tolerance⟩, b.frames.map Prod.snd)

/-- `get size()`. -/
def FrameBuffer.size (b : FrameBuffer) : ℕ :=
  b.frames.length

/-- Smallest buffered timestamp (the `buffered_min` of the spec's seek
policy). -/
def FrameBuffer.bufferedMin (b : FrameBuffer) : Option ℚ :=
  (b.frames.map Prod.fst).min?

/-- Largest buffered timestamp (the `buffered_max` of the spec's seek
policy). -/
def FrameBuffer.bufferedMax (b : FrameBuffer) : Option ℚ :=
  (b.frames.map Prod.fst).max?

/-- The structural invariant the `FrameBuffer` maintains: map keys are
unique, `insertOrder` carries exactly the map's keys (without duplicates),
and the size is within capacity. -/
def FrameBuffer.wf (b : FrameBuffer) : Prop :=
  (b.frames.map Prod.fst).Nodup ∧
    b.insertOrder.Nodup ∧
    (∀ k : ℚ, k ∈ b.frames.map Prod.fst ↔ k ∈ b.insertOrder) ∧
    b.frames.length ≤ b.maxSize

/-- One observable operation on a `FrameBuffer`. -/
inductive BufOp where
  | add (f : DecodedFrame)
  | get (t : ℚ)
  | clear
deriving Repr

/-- State reached after one operation (`get` does not mutate). -/
def applyOp (b : FrameBuffer) : BufOp → FrameBuffer
  | .add f => (b.add f).1
  | .get _ => b
  | .clear => b.clear.1

/-- State reached after a sequence of operations. -/
def applyOps (b : FrameBuffer) (ops : List BufOp) : FrameBuffer :=
  ops.foldl applyOp b

/-- `interface EffectWorkerState` from `decoder.ts`: the decode worker (the
execution context, represented by a generation number so that tearing down and
spawning a replacement is observable), its `FrameBuffer`, and the bookkeeping
fields. -/
structure EffectWorkerState where
  workerGeneration : ℕ
  buffer : FrameBuffer
  isDecoding : Bool
  lastRequestedTimestamp : ℚ
deriving DecidableEq, Repr

/-- `Decoder.#initWorkerForEffect`: a fresh worker and a fresh
`FrameBuffer(this.compositor.timebase)` (bufferSeconds defaulting to 2),
starting to decode from `startTimestamp`. -/
def initWorkerForEffect (timebase : ℚ) (generation : ℕ) (startTimestamp : ℚ) :
    EffectWorkerState where
  workerGeneration := generation
  buffer := mkFrameBuffer timebase 2
  isDecoding := true
  lastRequestedTimestamp := startTimestamp

/-- Observable outcome of `Decoder.seek` for one effect: how many times a
worker was torn down and restarted, the resulting worker state, and the frames
closed by clearing the buffer. -/
structure SeekOutcome where
  restarts : ℕ
  state : EffectWorkerState
  closed : List DecodedFrame
deriving Repr

/-- `Decoder.seek`, body of the per-effect loop: with no existing state, start
buffering; otherwise look up `newTimestamp - effect.start_at_position +
effect.start` in the buffer — on a hit keep the worker and buffer untouched,
on a miss clear the buffer, terminate the worker and start a new worker from
the new position (exactly one restart). -/
def seek_effect (timebase : ℚ) (state? : Option EffectWorkerState) (effect : Effect)
    (newTimestamp : ℚ) : SeekOutcome :=
  match state? with
  | none =>
    { restarts := 0, state := initWorkerForEffect timebase 0 newTimestamp, closed := [] }
  | some st =>
    let effectTime := newTimestamp - effect.start_at_position + effect.start
    match st.buffer.get effectTime with
    | some _ => { restarts := 0, state := st, closed := [] }
    | none =>
      { restarts := 1
        state := initWorkerForEffect timebase (st.workerGeneration + 1) newTimestamp
        closed := st.buffer.clear.2 }

/-- What `Decoder.draw_available_frames` does for one effect on one tick. -/
inductive DrawAction where
  | drew (f : DecodedFrame)
  | skipped
deriving DecidableEq, Repr

/-- Per-effect body of `Decoder.draw_available_frames`: look the
effect-relative time up in the buffer; on a cache hit draw that frame, on a
cache miss do nothing and continue (the method has no restart path and keeps
no miss counter — the worker state is returned unchanged in both cases, as in
the source, which never writes to `state` there). -/
def draw_available_frame_step (st : EffectWorkerState) (effect : Effect)
    (timestamp : ℚ) : DrawAction × EffectWorkerState :=
  match st.buffer.get (timestamp - effect.start_at_position + effect.start) with
  | some f => (.drew f, st)
  | none => (.skipped, st)

/-- Iterated playback ticks for one effect: the actions taken and the final
worker state. -/
def playback_steps (st : EffectWorkerState) (effect : Effect)
    (timestamps : List ℚ) : List DrawAction × EffectWorkerState :=
  timestamps.foldl
    (fun acc ts =>
      let r := draw_available_frame_step acc.2 effect ts
      (acc.1 ++ [r.1], r.2))
    ([], st)

/-- Modelled from the spec: `sort_effects_by_track` is imported by the decoder
but its file is not among the sources; the spec orders the active set by track
index. -/
def sort_effects_by_track (effects : List Effect) : List Effect :=
  effects.mergeSort fun a b => decide (a.track ≤ b.track)

/-- `Decoder.#waitForFrame`: poll the buffer every 10 ms until a hit or until
the timeout is exhausted; `polls` is the sequence of buffer snapshots seen at
the successive polls (at most `5000 / 10` of them within the 5000 ms
timeout).  Exhausting the polls returns `none` after a console warning. -/
def waitForFrame (polls : List FrameBuffer) (timestamp : ℚ) : Option DecodedFrame :=
  polls.findSome? fun b => b.get timestamp

/-- Observable result of `Decoder.get_and_draw_decoded_frame` (export path):
the `(effect id, effect-relative time)` pairs drawn, the effect-relative times
whose wait timed out (each produces exactly one console warning — the only
trace the method leaves of a missing frame), the timecodes recorded for an
end-of-export missing-frame report — the source records none, so this
component is always empty — and whether the final `compositor.app.render()`
was reached (the method never aborts on a timeout). -/
structure ExportResult where
  drawn : List (String × ℚ)
  timeoutWarnings : List ℚ
  missingRecorded : List ℚ
  rendered : Bool
deriving DecidableEq, Repr

/-- Per-effect body of the export loop in `Decoder.get_and_draw_decoded_frame`:
wait for the frame at the effect-relative time; draw it on success, skip on
timeout, and in both cases continue with the next effect. -/
def export_step (polls : Effect → List FrameBuffer) (timestamp : ℚ)
    (acc : List (String × ℚ) × List ℚ) (e : Effect) : List (String × ℚ) × List ℚ :=
  let effectTime := timestamp - e.start_at_position + e.start
  match waitForFrame (polls e) effectTime with
  | some _ => (acc.1 ++ [(e.id, effectTime)], acc.2)
  | none => (acc.1, acc.2 ++ [effectTime])

/-- `Decoder.get_and_draw_decoded_frame`: filter the active set down to video
effects, sort by track, and run the blocking per-effect acquisition; no
missing timecode is recorded anywhere (a timeout only logs a warning) and the
method always reaches its final render. -/
def get_and_draw_decoded_frame (pads : PadFn) (polls : Effect → List FrameBuffer)
    (effects : List Effect) (timestamp : ℚ) : ExportResult :=
  let videoEffects := sort_effects_by_track
    ((get_effects_relative_to_timecode pads effects timestamp).filter
      fun e => decide (e.kind = EffectKind.video))
  let acc := videoEffects.foldl (export_step polls timestamp) ([], [])
  { drawn := acc.1, timeoutWarnings := acc.2, missingRecorded := [], rendered := true }

/-- Fold a list of frames into a buffer with `add`, collecting every closed
frame. -/
def addFrames (b : FrameBuffer) (fs : List DecodedFrame) : FrameBuffer × List DecodedFrame :=
  fs.foldl (fun acc f => let r := acc.1.add f; (r.1, acc.2 ++ r.2)) (b, [])

/-- `n` sequential decoded frames at the 25 fps frame interval: frame `k + 1`
carries timestamp `40 k` ms. -/
def seqFrames (n : ℕ) : List DecodedFrame :=
  (List.range n).map fun (k : ℕ) =>
    { timestamp := ((40 * k : ℕ) : ℚ), effect_id := "A", frame_id := k + 1 }

/-- Effect A of the spec's transition scenario: spans `[0, 2000)` ms on
track 0 (`start_at_position = 0`, trimmed window `[0, 2000)`). -/
def effA : Effect :=
  { id := "A", kind := .video, start_at_position := 0, duration := 2000,
    start := 0, «end» := 2000, track := 0 }

/-- Effect B of the spec's transition scenario: spans `[1500, 4000)` ms on
track 0 (`start_at_position = 1500`, trimmed window `[0, 2500)`). -/
def effB : Effect :=
  { id := "B", kind := .video, start_at_position := 1500, duration := 2500,
    start := 0, «end» := 2500, track := 0 }

/-- Pads for a 500 ms transition between A and B, split half/half: A gets a
250 ms outgoing pad, B a 250 ms incoming pad. -/
def padsAB : PadFn := fun e => if e.id = "A" then (0, 250) else (250, 0)

/-- A zero-duration effect: `«end» = start`, so its visible span is empty. -/
def effZ : Effect :=
  { id := "z", kind := .video, start_at_position := 100, duration := 500,
    start := 50, «end» := 50, track := 0 }

/-- The pad function when no transition references any effect. -/
def padsZero : PadFn := fun _ => (0, 0)

/-- A video effect placed at the timeline origin with an untrimmed 20 s
window. -/
def effV : Effect :=
  { id := "v", kind := .video, start_at_position := 0, duration := 20000,
    start := 0, «end» := 20000, track := 0 }

/-- An empty frame buffer with the 25 fps tolerance of 20 ms. -/
def emptyBuf : FrameBuffer :=
  { frames := [], insertOrder := [], maxSize := 50, tolerance := 20 }

/-- A worker state whose buffer is empty (every lookup misses). -/
def stEmpty : EffectWorkerState :=
  { workerGeneration := 0, buffer := emptyBuf, isDecoding := true,
    lastRequestedTimestamp := 0 }

def fr0 : DecodedFrame := { timestamp := 0, effect_id := "v", frame_id := 1 }

def fr1000 : DecodedFrame := { timestamp := 1000, effect_id := "v", frame_id := 2 }

/-- A buffer holding frames at 0 ms and 1000 ms only (buffered range
`[0, 1000]`), with the 25 fps tolerance of 20 ms. -/
def bufC4 : FrameBuffer :=
  { frames := [(0, fr0), (1000, fr1000)], insertOrder := [0, 1000],
    maxSize := 50, tolerance := 20 }

/-- A worker state over `bufC4`. -/
def stC4 : EffectWorkerState :=
  { workerGeneration := 0, buffer := bufC4, isDecoding := true,
    lastRequestedTimestamp := 0 }

/-- Poll sequences in which every poll sees an empty buffer: the full 5000 ms
timeout (500 polls, 10 ms apart) elapses without a frame. -/
def pollsEmpty : Effect → List FrameBuffer := fun _ => List.replicate 500 emptyBuf

def frOld : DecodedFrame := { timestamp := 0, effect_id := "v", frame_id := 1 }

def frNew : DecodedFrame := { timestamp := 0, effect_id := "v", frame_id := 7 }

def frOther : DecodedFrame := { timestamp := 40, effect_id := "v", frame_id := 2 }

/-- A buffer with entries at 0 ms and 40 ms, used to exercise the
replace-in-place path of `add`. -/
def bufR : FrameBuffer :=
  { frames := [(0, frOld), (40, frOther)], insertOrder := [0, 40],
    maxSize := 50, tolerance := 20 }

theorem mapHas_iff {m : FrameMap} {k : ℚ} :
    mapHas m k = true ↔ k ∈ m.map Prod.fst := by
  unfold mapHas
  rw [List.any_eq_true]
  constructor
  · rintro ⟨p, hp, he⟩
    exact List.mem_map.mpr ⟨p, hp, by simpa using he⟩
  · intro h
    rcases List.mem_map.mp h with ⟨p, hp, he⟩
    exact ⟨p, hp, by simpa using he⟩

theorem mapHas_eq_false {m : FrameMap} {k : ℚ} :
    mapHas m k = false ↔ k ∉ m.map Prod.fst := by
  rw [← mapHas_iff]
  cases mapHas m k <;> simp

theorem mapGet_eq_none {m : FrameMap} {k : ℚ} :
    mapGet m k = none ↔ k ∉ m.map Prod.fst := by
  unfold mapGet
  rw [Option.map_eq_none', List.find?_eq_none]
  constructor
  · intro h hk
    rcases List.mem_map.mp hk with ⟨p, hp, he⟩
    exact (h p hp) (by simpa using he)
  · intro h p hp
    simp only [decide_eq_true_eq]
    intro he
    exact h (List.mem_map.mpr ⟨p, hp, he⟩)

theorem mapGet_isSome {m : FrameMap} {k : ℚ} :
    (mapGet m k).isSome = true ↔ k ∈ m.map Prod.fst := by
  constructor
  · intro h
    by_contra hk
    rw [mapGet_eq_none.mpr hk] at h
    simp at h
  · intro h
    cases hg : mapGet m k with
    | none => exact absurd h (mapGet_eq_none.mp hg)
    | some v => simp

theorem mapGet_mem {m : FrameMap} {k : ℚ} {v : DecodedFrame}
    (h : mapGet m k = some v) : (k, v) ∈ m := by
  unfold mapGet at h
  cases hf : m.find? (fun p => decide (p.1 = k)) with
  | none => rw [hf] at h; simp at h
  | some p =>
    rw [hf] at h
    have hm := List.mem_of_find?_eq_some hf
    have hp : p.1 = k := by simpa using List.find?_some hf
    have hv : p.2 = v := by simpa using h
    have hkv : (k, v) = p := by
      obtain ⟨p1, p2⟩ := p
      simp at hp hv
      simp [hp, hv]
    rw [hkv]
    exact hm

theorem mapGet_eq_some_of_mem {m : FrameMap} {k : ℚ} {v : DecodedFrame}
    (hnd : (m.map Prod.fst).Nodup) (h : (k, v) ∈ m) : mapGet m k = some v := by
  induction m with
  | nil => simp at h
  | cons p m ih =>
    rw [List.map_cons, List.nodup_cons] at hnd
    rcases List.mem_cons.mp h with h1 | h1
    · rw [← h1]
      unfold mapGet
      rw [List.find?_cons_of_pos _ (by simp)]
      rfl
    · have hk : k ∈ m.map Prod.fst := List.mem_map.mpr ⟨(k, v), h1, rfl⟩
      have hne : p.1 ≠ k := fun he => hnd.1 (he ▸ hk)
      unfold mapGet
      rw [List.find?_cons_of_neg _ (by simp [hne])]
      exact ih hnd.2 h1

theorem keys_mapSet_of_has {m : FrameMap} {k : ℚ} {v : DecodedFrame}
    (h : mapHas m k = true) :
    (mapSet m k v).map Prod.fst = m.map Prod.fst := by
  unfold mapSet
  rw [if_pos h, List.map_map]
  apply List.map_congr_left
  intro p _
  by_cases hp : p.1 = k <;> simp [hp]

theorem mapSet_of_not_has {m : FrameMap} {k : ℚ} {v : DecodedFrame}
    (h : mapHas m k = false) : mapSet m k v = m ++ [(k, v)] := by
  unfold mapSet
  rw [if_neg (by simp [h])]

theorem length_mapSet_of_has {m : FrameMap} {k : ℚ} {v : DecodedFrame}
    (h : mapHas m k = true) : (mapSet m k v).length = m.length := by
  have h2 := congrArg List.length (keys_mapSet_of_has (v := v) h)
  simpa using h2

theorem keys_mapDelete {m : FrameMap} {k : ℚ} :
    (mapDelete m k).map Prod.fst = (m.map Prod.fst).filter (fun a => decide (a ≠ k)) := by
  induction m with
  | nil => rfl
  | cons p m ih =>
    by_cases hp : p.1 = k
    · rw [List.map_cons]
      rw [show mapDelete (p :: m) k = mapDelete m k from by
        simp [mapDelete, List.filter, hp]]
      rw [ih, List.filter_cons_of_neg (by simp [hp])]
    · rw [List.map_cons]
      rw [show mapDelete (p :: m) k = p :: mapDelete m k from by
        simp [mapDelete, List.filter, hp]]
      rw [List.map_cons, ih, List.filter_cons_of_pos (by simp [hp])]

theorem mem_keys_mapDelete {m : FrameMap} {k a : ℚ} :
    a ∈ (mapDelete m k).map Prod.fst ↔ a ∈ m.map Prod.fst ∧ a ≠ k := by
  rw [keys_mapDelete]
  simp [List.mem_filter]

theorem mapGet_replace_self {m : FrameMap} {k : ℚ} {v : DecodedFrame}
    (h : k ∈ m.map Prod.fst) :
    mapGet (m.map fun p => if p.1 = k then (k, v) else p) k = some v := by
  induction m with
  | nil => simp at h
  | cons p m ih =>
    rw [List.map_cons]
    by_cases hp : p.1 = k
    · rw [if_pos hp]
      unfold mapGet
      rw [List.find?_cons_of_pos _ (by simp)]
      rfl
    · rw [if_neg hp, List.map_cons] at *
      rcases List.mem_cons.mp h with h1 | h1
      · exact absurd h1.symm hp
      · unfold mapGet
        rw [List.find?_cons_of_neg _ (by simp [hp])]
        exact ih h1

theorem mapGet_replace_other {m : FrameMap} {k a : ℚ} {v : DecodedFrame}
    (hne : a ≠ k) :
    mapGet (m.map fun p => if p.1 = k then (k, v) else p) a = mapGet m a := by
  induction m with
  | nil => rfl
  | cons p m ih =>
    rw [List.map_cons]
    by_cases hp : p.1 = k
    · rw [if_pos hp]
      have h1 : ¬((k : ℚ) = a) := fun he => hne he.symm
      unfold mapGet
      rw [List.find?_cons_of_neg _ (by simp [h1]),
        List.find?_cons_of_neg _ (by simp [hp, h1])]
      exact ih
    · rw [if_neg hp]
      by_cases hpa : p.1 = a
      · unfold mapGet
        rw [List.find?_cons_of_pos _ (by simp [hpa]),
          List.find?_cons_of_pos _ (by simp [hpa])]
      · unfold mapGet
        rw [List.find?_cons_of_neg _ (by simp [hpa]),
          List.find?_cons_of_neg _ (by simp [hpa])]
        exact ih

theorem mapGet_mapSet_self {m : FrameMap} {k : ℚ} {v : DecodedFrame} :
    mapGet (mapSet m k v) k = some v := by
  by_cases h : mapHas m k = true
  · rw [mapSet, if_pos h]
    exact mapGet_replace_self (mapHas_iff.mp h)
  · have hfalse : mapHas m k = false := by
      revert h; cases mapHas m k <;> simp
    rw [mapSet_of_not_has hfalse]
    have hnone : m.find? (fun p => decide (p.1 = k)) = none := by
      rw [List.find?_eq_none]
      intro p hp
      simp only [decide_eq_true_eq]
      intro he
      exact (mapHas_eq_false.mp hfalse) (List.mem_map.mpr ⟨p, hp, he⟩)
    unfold mapGet
    rw [List.find?_append, hnone, Option.none_or,
      List.find?_cons_of_pos _ (by simp)]
    rfl

theorem mapGet_mapSet_other {m : FrameMap} {k a : ℚ} {v : DecodedFrame}
    (hne : a ≠ k) : mapGet (mapSet m k v) a = mapGet m a := by
  by_cases h : mapHas m k = true
  · rw [mapSet, if_pos h]
    exact mapGet_replace_other hne
  · have hfalse : mapHas m k = false := by
      revert h; cases mapHas m k <;> simp
    rw [mapSet_of_not_has hfalse]
    unfold mapGet
    rw [List.find?_append]
    have h1 : ¬((k : ℚ) = a) := fun he => hne he.symm
    rw [List.find?_cons_of_neg _ (by simp [h1])]
    simp [List.find?]
theorem scanStep_sound {tol t : ℚ} {acc : Option (DecodedFrame × ℚ)}
    {p : ℚ × DecodedFrame} {f : DecodedFrame} {d : ℚ}
    (h : scanStep tol t acc p = some (f, d)) :
    (f = p.2 ∧ d = |p.1 - t| ∧ d ≤ tol) ∨ acc = some (f, d) := by
  unfold scanStep at h
  cases acc with
  | none =>
    dsimp only at h
    by_cases hd : |p.1 - t| ≤ tol
    · rw [if_pos hd] at h
      simp only [Option.some.injEq, Prod.mk.injEq] at h
      exact Or.inl ⟨h.1.symm, h.2.symm, h.2 ▸ hd⟩
    · rw [if_neg hd] at h
      simp at h
  | some q =>
    obtain ⟨g, bd⟩ := q
    dsimp only at h
    by_cases hc : |p.1 - t| < bd ∧ |p.1 - t| ≤ tol
    · rw [if_pos hc] at h
      simp only [Option.some.injEq, Prod.mk.injEq] at h
      exact Or.inl ⟨h.1.symm, h.2.symm, h.2 ▸ hc.2⟩
    · rw [if_neg hc] at h
      exact Or.inr h

theorem scanStep_mono {tol t : ℚ} {p : ℚ × DecodedFrame} {f : DecodedFrame} {d : ℚ} :
    ∃ f' d', scanStep tol t (some (f, d)) p = some (f', d') ∧ d' ≤ d := by
  unfold scanStep
  dsimp only
  by_cases hc : |p.1 - t| < d ∧ |p.1 - t| ≤ tol
  · exact ⟨p.2, |p.1 - t|, by rw [if_pos hc], le_of_lt hc.1⟩
  · exact ⟨f, d, by rw [if_neg hc], le_rfl⟩

theorem scanStep_hit {tol t : ℚ} {acc : Option (DecodedFrame × ℚ)}
    {p : ℚ × DecodedFrame} (hd : |p.1 - t| ≤ tol) :
    ∃ f' d', scanStep tol t acc p = some (f', d') ∧ d' ≤ |p.1 - t| := by
  unfold scanStep
  cases acc with
  | none =>
    dsimp only
    exact ⟨p.2, |p.1 - t|, by rw [if_pos hd], le_rfl⟩
  | some q =>
    obtain ⟨g, bd⟩ := q
    dsimp only
    by_cases hc : |p.1 - t| < bd ∧ |p.1 - t| ≤ tol
    · exact ⟨p.2, |p.1 - t|, by rw [if_pos hc], le_rfl⟩
    · refine ⟨g, bd, by rw [if_neg hc], ?_⟩
      rcases not_and_or.mp hc with h1 | h1
      · exact le_of_not_lt h1
      · exact absurd hd h1

theorem foldl_scan_mono {tol t : ℚ} :
    ∀ {m : FrameMap} {f : DecodedFrame} {d : ℚ},
      ∃ f' d', m.foldl (scanStep tol t) (some (f, d)) = some (f', d') ∧ d' ≤ d := by
  intro m
  induction m with
  | nil =>
    intro f d
    exact ⟨f, d, rfl, le_rfl⟩
  | cons p m ih =>
    intro f d
    rw [List.foldl_cons]
    obtain ⟨f2, d2, hstep, hd2⟩ := @scanStep_mono tol t p f d
    rw [hstep]
    obtain ⟨f3, d3, hfold, hd3⟩ := ih (f := f2) (d := d2)
    exact ⟨f3, d3, hfold, le_trans hd3 hd2⟩

theorem foldl_scan_sound {tol t : ℚ} :
    ∀ {m : FrameMap} {acc : Option (DecodedFrame × ℚ)} {f : DecodedFrame} {d : ℚ},
      m.foldl (scanStep tol t) acc = some (f, d) →
      (∃ k, (k, f) ∈ m ∧ d = |k - t| ∧ d ≤ tol) ∨ acc = some (f, d) := by
  intro m
  induction m with
  | nil => exact fun h => Or.inr h
  | cons p m ih =>
    intro acc f d h
    rw [List.foldl_cons] at h
    rcases ih h with h1 | h1
    · obtain ⟨k, hk, hd1, hd2⟩ := h1
      exact Or.inl ⟨k, List.mem_cons_of_mem _ hk, hd1, hd2⟩
    · rcases scanStep_sound h1 with h2 | h2
      · exact Or.inl ⟨p.1, by rw [h2.1]; exact List.mem_cons_self _ _, h2.2.1, h2.2.2⟩
      · exact Or.inr h2

theorem foldl_scan_complete {tol t : ℚ} :
    ∀ {m : FrameMap} {acc : Option (DecodedFrame × ℚ)} {p : ℚ × DecodedFrame},
      p ∈ m → |p.1 - t| ≤ tol →
      ∃ f' d', m.foldl (scanStep tol t) acc = some (f', d') ∧ d' ≤ |p.1 - t| := by
  intro m
  induction m with
  | nil => intro acc p h; simp at h
  | cons q m ih =>
    intro acc p hmem hd
    rw [List.foldl_cons]
    rcases List.mem_cons.mp hmem with h1 | h1
    · subst h1
      obtain ⟨f2, d2, hstep, hd2⟩ := @scanStep_hit tol t acc p hd
      rw [hstep]
      obtain ⟨f3, d3, hfold, hd3⟩ := foldl_scan_mono (m := m) (f := f2) (d := d2)
      exact ⟨f3, d3, hfold, le_trans hd3 hd2⟩
    · exact ih h1 hd

theorem get_eq_some_spec {b : FrameBuffer} {t : ℚ} {f : DecodedFrame}
    (htol : 0 ≤ b.tolerance) (h : b.get t = some f) :
    ∃ k, (k, f) ∈ b.frames ∧ |k - t| ≤ b.tolerance ∧
      ∀ p ∈ b.frames, |k - t| ≤ |p.1 - t| := by
  unfold FrameBuffer.get at h
  cases hg : mapGet b.frames t with
  | some f0 =>
    rw [hg] at h
    have hf : f0 = f := by simpa using h
    refine ⟨t, hf ▸ mapGet_mem hg, by simpa using htol, ?_⟩
    intro p hp
    simp
  | none =>
    rw [hg] at h
    obtain ⟨⟨f1, d⟩, hscan, hf1⟩ := Option.map_eq_some'.mp h
    simp only at hf1
    subst hf1
    rcases foldl_scan_sound hscan with h1 | h1
    · obtain ⟨k, hk, hd1, hd2⟩ := h1
      refine ⟨k, hk, hd1 ▸ hd2, ?_⟩
      intro p hp
      by_cases hptol : |p.1 - t| ≤ b.tolerance
      · obtain ⟨f3, d3, hfold, hd3⟩ :=
          @foldl_scan_complete b.tolerance t b.frames (none : Option (DecodedFrame × ℚ)) p hp hptol
        rw [closestScan] at hscan
        rw [hscan] at hfold
        simp only [Option.some.injEq, Prod.mk.injEq] at hfold
        rw [← hd1, hfold.2]
        exact hd3
      · calc |k - t| ≤ b.tolerance := hd1 ▸ hd2
          _ ≤ |p.1 - t| := le_of_lt (lt_of_not_le hptol)
    · simp at h1

theorem get_eq_none_iff {b : FrameBuffer} {t : ℚ} (htol : 0 ≤ b.tolerance) :
    b.get t = none ↔ ∀ p ∈ b.frames, ¬(|p.1 - t| ≤ b.tolerance) := by
  constructor
  · intro h p hp hd
    unfold FrameBuffer.get at h
    cases hg : mapGet b.frames t with
    | some f0 => rw [hg] at h; simp at h
    | none =>
      rw [hg] at h
      obtain ⟨f3, d3, hfold, hd3⟩ :=
        @foldl_scan_complete b.tolerance t b.frames (none : Option (DecodedFrame × ℚ)) p hp hd
      rw [closestScan, hfold] at h
      simp at h
  · intro hall
    unfold FrameBuffer.get
    have hg : mapGet b.frames t = none := by
      cases hg : mapGet b.frames t with
      | none => rfl
      | some f0 =>
        exact absurd (by simpa using htol) (hall (t, f0) (mapGet_mem hg))
    rw [hg]
    cases hscan : closestScan b.tolerance t b.frames with
    | none => rfl
    | some q =>
      obtain ⟨f1, d⟩ := q
      rcases foldl_scan_sound hscan with h1 | h1
      · obtain ⟨k, hk, hd1, hd2⟩ := h1
        exact absurd (hd1 ▸ hd2) (hall (k, f1) hk)
      · simp at h1

theorem add_replace {b : FrameBuffer} {f : DecodedFrame}
    (h : mapHas b.frames f.timestamp = true) :
    b.add f = (⟨mapSet b.frames f.timestamp f, b.insertOrder, b.maxSize, b.tolerance⟩,
      (mapGet b.frames f.timestamp).toList) := by
  unfold FrameBuffer.add
  rw [if_pos h]

theorem add_append {b : FrameBuffer} {f : DecodedFrame}
    (h : mapHas b.frames f.timestamp = false) (hlt : b.frames.length < b.maxSize) :
    b.add f = (⟨b.frames ++ [(f.timestamp, f)], b.insertOrder ++ [f.timestamp],
      b.maxSize, b.tolerance⟩, []) := by
  unfold FrameBuffer.add
  rw [if_neg (by simp [h]), if_neg (Nat.not_le.mpr hlt)]
  dsimp only
  rw [mapSet_of_not_has h]

theorem add_evict {b : FrameBuffer} {f : DecodedFrame} {oldest : ℚ} {rest : List ℚ}
    {ev : DecodedFrame}
    (h : mapHas b.frames f.timestamp = false) (hfull : b.maxSize ≤ b.frames.length)
    (hord : b.insertOrder = oldest :: rest) (hev : mapGet b.frames oldest = some ev) :
    b.add f = (⟨mapDelete b.frames oldest ++ [(f.timestamp, f)], rest ++ [f.timestamp],
      b.maxSize, b.tolerance⟩, [ev]) := by
  unfold FrameBuffer.add
  rw [if_neg (by simp [h]), if_pos hfull, hord]
  dsimp only
  rw [hev]
  dsimp only
  have hnot : mapHas (mapDelete b.frames oldest) f.timestamp = false := by
    rw [mapHas_eq_false]
    intro hmem
    exact (mapHas_eq_false.mp h) (mem_keys_mapDelete.mp hmem).1
  rw [mapSet_of_not_has hnot]

theorem wf_clear {b : FrameBuffer} : b.clear.1.wf := by
  refine ⟨List.nodup_nil, List.nodup_nil, ?_, ?_⟩ <;> simp [FrameBuffer.clear]

theorem wf_add {b : FrameBuffer} {f : DecodedFrame} (hwf : b.wf)
    (hcap : 1 ≤ b.maxSize) : (b.add f).1.wf := by
  obtain ⟨hnd, hndo, hiff, hlen⟩ := hwf
  by_cases h : mapHas b.frames f.timestamp = true
  · rw [add_replace h]
    refine ⟨?_, hndo, ?_, ?_⟩
    · rw [keys_mapSet_of_has h]; exact hnd
    · intro k
      rw [keys_mapSet_of_has h]
      exact hiff k
    · rw [length_mapSet_of_has h]; exact hlen
  · have hfalse : mapHas b.frames f.timestamp = false := by
      revert h; cases mapHas b.frames f.timestamp <;> simp
    have hts : f.timestamp ∉ b.frames.map Prod.fst := mapHas_eq_false.mp hfalse
    by_cases hfull : b.maxSize ≤ b.frames.length
    · cases hord : b.insertOrder with
      | nil =>
        exfalso
        have hkeys : b.frames.map Prod.fst = [] := by
          rw [List.eq_nil_iff_forall_not_mem]
          intro a ha
          have := (hiff a).mp ha
          rw [hord] at this
          simp at this
        have : b.frames.length = 0 := by
          have h2 := congrArg List.length hkeys
          simpa using h2
        omega
      | cons oldest rest =>
        have holdk : oldest ∈ b.frames.map Prod.fst :=
          (hiff oldest).mpr (by rw [hord]; exact List.mem_cons_self _ _)
        obtain ⟨ev, hev⟩ : ∃ ev, mapGet b.frames oldest = some ev := by
          cases hg : mapGet b.frames oldest with
          | none => exact absurd holdk (mapGet_eq_none.mp hg)
          | some v => exact ⟨v, rfl⟩
        rw [add_evict hfalse hfull hord hev]
        rw [hord] at hndo
        rw [List.nodup_cons] at hndo
        have htso : f.timestamp ∉ rest := fun hmem =>
          hts ((hiff f.timestamp).mpr (by rw [hord]; exact List.mem_cons_of_mem _ hmem))
        have hdel_keys : (mapDelete b.frames oldest).map Prod.fst =
            (b.frames.map Prod.fst).filter (fun a => decide (a ≠ oldest)) := keys_mapDelete
        refine ⟨?_, ?_, ?_, ?_⟩
        · rw [List.map_append, hdel_keys]
          rw [List.nodup_append]
          refine ⟨hnd.filter _, by simp, ?_⟩
          intro a ha
          have := (List.mem_filter.mp ha).1
          simp only [List.map_cons, List.map_nil, List.mem_singleton]
          intro he
          exact hts (he ▸ this)
        · rw [List.nodup_append]
          refine ⟨hndo.2, by simp, ?_⟩
          intro a ha
          simp only [List.mem_singleton]
          intro he
          exact htso (he ▸ ha)
        · intro k
          rw [List.map_append, List.mem_append, hdel_keys, List.mem_filter,
            List.mem_append]
          constructor
          · rintro (⟨hk, hko⟩ | hk)
            · left
              have := (hiff k).mp hk
              rw [hord] at this
              rcases List.mem_cons.mp this with h1 | h1
              · exact absurd (by simpa using hko) (by simp [h1])
              · exact h1
            · right
              simpa using hk
          · rintro (hk | hk)
            · left
              refine ⟨(hiff k).mpr (by rw [hord]; exact List.mem_cons_of_mem _ hk), ?_⟩
              simp only [decide_eq_true_eq]
              intro he
              exact hndo.1 (he ▸ hk)
            · right
              simpa using hk
        · rw [List.length_append]
          have hlen1 : (mapDelete b.frames oldest).length + 1 = b.frames.length := by
            have e1 : (mapDelete b.frames oldest).length =
                ((b.frames.map Prod.fst).filter (fun a => decide (a ≠ oldest))).length := by
              have h2 := congrArg List.length hdel_keys
              simpa using h2
            have e2 : (b.frames.map Prod.fst).filter (fun a => decide (a ≠ oldest)) =
                (b.frames.map Prod.fst).erase oldest := by
              rw [List.Nodup.erase_eq_filter hnd]
              apply List.filter_congr
              intro a _
              cases hq : decide (a = oldest) <;> simp_all [bne]
            have e3 : ((b.frames.map Prod.fst).erase oldest).length + 1 =
                (b.frames.map Prod.fst).length :=
              List.length_erase_add_one holdk
            have e4 : (b.frames.map Prod.fst).length = b.frames.length :=
              List.length_map _ _
            have e2l : ((b.frames.map Prod.fst).filter (fun a => decide (a ≠ oldest))).length =
                ((b.frames.map Prod.fst).erase oldest).length := congrArg List.length e2
            omega
          simp only [List.length_cons, List.length_nil]
          omega
    · rw [add_append hfalse (Nat.not_le.mp hfull)]
      refine ⟨?_, ?_, ?_, ?_⟩
      · rw [List.map_append, List.nodup_append]
        refine ⟨hnd, by simp, ?_⟩
        intro a ha
        simp only [List.map_cons, List.map_nil, List.mem_singleton]
        intro he
        exact hts (he ▸ ha)
      · rw [List.nodup_append]
        refine ⟨hndo, by simp, ?_⟩
        intro a ha
        simp only [List.mem_singleton]
        intro he
        exact hts ((hiff f.timestamp).mpr (he ▸ ha))
      · intro k
        rw [List.map_append, List.mem_append, List.mem_append]
        constructor
        · rintro (hk | hk)
          · exact Or.inl ((hiff k).mp hk)
          · exact Or.inr (by simpa using hk)
        · rintro (hk | hk)
          · exact Or.inl ((hiff k).mpr hk)
          · exact Or.inr (by simpa using hk)
      · rw [List.length_append]
        have hlt := Nat.not_le.mp hfull
        simp only [List.length_cons, List.length_nil]
        omega

theorem maxSize_add {b : FrameBuffer} {f : DecodedFrame} :
    (b.add f).1.maxSize = b.maxSize := by
  unfold FrameBuffer.add
  by_cases h : mapHas b.frames f.timestamp = true
  · rw [if_pos h]
  · rw [if_neg h]

theorem tolerance_add {b : FrameBuffer} {f : DecodedFrame} :
    (b.add f).1.tolerance = b.tolerance := by
  unfold FrameBuffer.add
  by_cases h : mapHas b.frames f.timestamp = true
  · rw [if_pos h]
  · rw [if_neg h]

theorem wf_applyOp {b : FrameBuffer} {op : BufOp} (hwf : b.wf)
    (hcap : 1 ≤ b.maxSize) :
    (applyOp b op).wf ∧ (applyOp b op).maxSize = b.maxSize := by
  cases op with
  | add f => exact ⟨wf_add hwf hcap, maxSize_add⟩
  | get t => exact ⟨hwf, rfl⟩
  | clear => exact ⟨wf_clear, rfl⟩

theorem wf_applyOps {b : FrameBuffer} {ops : List BufOp} (hwf : b.wf)
    (hcap : 1 ≤ b.maxSize) :
    (applyOps b ops).wf ∧ (applyOps b ops).maxSize = b.maxSize := by
  induction ops generalizing b with
  | nil => exact ⟨hwf, rfl⟩
  | cons op ops ih =>
    have h1 := @wf_applyOp b op hwf hcap
    have h2 := ih h1.1 (h1.2 ▸ hcap)
    exact ⟨h2.1, h2.2.trans h1.2⟩

theorem size_applyOps_le {b : FrameBuffer} {ops : List BufOp} (hwf : b.wf)
    (hcap : 1 ≤ b.maxSize) : (applyOps b ops).size ≤ b.maxSize := by
  have h := @wf_applyOps b ops hwf hcap
  exact h.2 ▸ h.1.2.2.2

theorem wf_mkFrameBuffer {timebase bufferSeconds : ℚ} :
    (mkFrameBuffer timebase bufferSeconds).wf :=
  ⟨List.nodup_nil, List.nodup_nil, by simp [mkFrameBuffer], by simp [mkFrameBuffer]⟩

theorem maxSize_mkFrameBuffer_pos {timebase bufferSeconds : ℚ}
    (ht : 0 < timebase) (hs : 0 < bufferSeconds) :
    1 ≤ (mkFrameBuffer timebase bufferSeconds).maxSize := by
  have hpos : (0 : ℚ) < timebase * bufferSeconds := mul_pos ht hs
  have hceil : (1 : ℤ) ≤ ⌈timebase * bufferSeconds⌉ := by
    exact_mod_cast Int.ceil_pos.mpr hpos
  simpa [mkFrameBuffer] using Int.toNat_le_toNat hceil

theorem export_foldl_spec (polls : Effect → List FrameBuffer) (timestamp : ℚ) :
    ∀ (l : List Effect) (acc : List (String × ℚ) × List ℚ),
      l.foldl (export_step polls timestamp) acc =
        (acc.1 ++ l.filterMap (fun e =>
            let k := timestamp - e.start_at_position + e.start
            if (waitForFrame (polls e) k).isSome then some (e.id, k) else none),
          acc.2 ++ l.filterMap (fun e =>
            let k := timestamp - e.start_at_position + e.start
            if (waitForFrame (polls e) k).isSome then none else some k)) := by
  intro l
  induction l with
  | nil => intro acc; simp
  | cons e l ih =>
    intro acc
    rw [List.foldl_cons, ih]
    cases h : waitForFrame (polls e) (timestamp - e.start_at_position + e.start) with
    | some f =>
      simp only [export_step, h, List.filterMap_cons]
      simp
    | none =>
      simp only [export_step, h, List.filterMap_cons]
      simp

theorem playback_steps_state {st : EffectWorkerState} {effect : Effect} :
    ∀ {timestamps : List ℚ}, (playback_steps st effect timestamps).2 = st := by
  have hgen : ∀ (l : List ℚ) (acc : List DrawAction × EffectWorkerState),
      (l.foldl (fun acc ts =>
        let r := draw_available_frame_step acc.2 effect ts
        (acc.1 ++ [r.1], r.2)) acc).2 = acc.2 := by
    intro l
    induction l with
    | nil => intro acc; rfl
    | cons ts l ih =>
      intro acc
      rw [List.foldl_cons]
      rw [ih]
      unfold draw_available_frame_step
      cases acc.2.buffer.get (ts - effect.start_at_position + effect.start) <;> rfl
  intro timestamps
  exact hgen timestamps ([], st)

theorem playback_steps_actions {st : EffectWorkerState} {effect : Effect} :
    ∀ {timestamps : List ℚ},
      (playback_steps st effect timestamps).1 = timestamps.map (fun ts =>
        (draw_available_frame_step st effect ts).1) := by
  have hgen : ∀ (l : List ℚ) (acc : List DrawAction × EffectWorkerState),
      acc.2 = st →
      (l.foldl (fun acc ts =>
        let r := draw_available_frame_step acc.2 effect ts
        (acc.1 ++ [r.1], r.2)) acc).1 =
        acc.1 ++ l.map (fun ts => (draw_available_frame_step st effect ts).1) := by
    intro l
    induction l with
    | nil => intro acc _; simp
    | cons ts l ih =>
      intro acc hacc
      rw [List.foldl_cons]
      have hst : (draw_available_frame_step acc.2 effect ts).2 = acc.2 := by
        unfold draw_available_frame_step
        cases acc.2.buffer.get (ts - effect.start_at_position + effect.start) <;> rfl
      rw [ih _ (hst.trans hacc)]
      rw [hacc]
      simp

  intro timestamps
  exact (hgen timestamps ([], st) rfl).trans (by simp)

theorem mem_get_effects_relative_to_timecode (pads : PadFn) (effects : List Effect)
    (timecode : ℚ) (e : Effect) (he : e ∈ effects) :
    e ∈ get_effects_relative_to_timecode pads effects timecode ↔
      e.start_at_position - (pads e).1 ≤ timecode ∧
        timecode ≤ e.start_at_position + (e.«end» - e.start) + (pads e).2 := by
  simp [get_effects_relative_to_timecode, List.mem_filter, he]

theorem calculateDynamicDelay_mono {q q' : ℚ} (h : q ≤ q') :
    calculateDynamicDelay q ≤ calculateDynamicDelay q' := by
  have hmul : q / queueLimit * maxDelay ≤ q' / queueLimit * maxDelay := by
    unfold queueLimit maxDelay
    linarith
  exact min_le_min le_rfl (max_le_max le_rfl hmul)

theorem length_mapDelete_of_mem {m : FrameMap} {k : ℚ}
    (hnd : (m.map Prod.fst).Nodup) (hk : k ∈ m.map Prod.fst) :
    (mapDelete m k).length + 1 = m.length := by
  have e1 : (mapDelete m k).length =
      ((m.map Prod.fst).filter (fun a => decide (a ≠ k))).length := by
    have h2 := congrArg List.length (keys_mapDelete (m := m) (k := k))
    simpa using h2
  have e2 : (m.map Prod.fst).filter (fun a => decide (a ≠ k)) =
      (m.map Prod.fst).erase k := by
    rw [List.Nodup.erase_eq_filter hnd]
    apply List.filter_congr
    intro a _
    cases hq : decide (a = k) <;> simp_all [bne]
  have e3 : ((m.map Prod.fst).erase k).length + 1 = (m.map Prod.fst).length :=
    List.length_erase_add_one hk
  have e4 : (m.map Prod.fst).length = m.length := List.length_map _ _
  have e2l := congrArg List.length e2
  omega

theorem mk255 : mkFrameBuffer 25 5 =
    { frames := [], insertOrder := [], maxSize := 125, tolerance := 20 } := by
  unfold mkFrameBuffer
  norm_num
  rfl

theorem waitForFrame_replicate_empty (n : ℕ) (t : ℚ) :
    waitForFrame (List.replicate n emptyBuf) t = none := by
  induction n with
  | zero => rfl
  | succ n ih =>
    rw [List.replicate_succ]
    unfold waitForFrame at ih ⊢
    rw [List.findSome?_cons]
    exact ih

/-- C1: for every pad function, effect list, timecode `t` and effect `e` in
the list, the active-set query `get_effects_relative_to_timecode` returns `e`
iff `start_at_position(e) - incoming(e) ≤ t ≤ start_at_position(e) +
(end(e) - start(e)) + outgoing(e)`, both bounds inclusive. -/
theorem claim_C1 (pads : PadFn) (effects : List Effect) (t : ℚ) (e : Effect)
    (he : e ∈ effects) :
    e ∈ get_effects_relative_to_timecode pads effects t ↔
      e.start_at_position - (pads e).1 ≤ t ∧
        t ≤ e.start_at_position + (e.«end» - e.start) + (pads e).2 :=
  mem_get_effects_relative_to_timecode pads effects t e he

/-- C1 witness: effect A spanning `[0, 2000)` ms and effect B spanning
`[1500, 4000)` ms with a 500 ms transition split between them are both
reported active at `t = 1700` ms. -/
theorem claim_C1_witness :
    effA ∈ get_effects_relative_to_timecode padsAB [effA, effB] 1700 ∧
    effB ∈ get_effects_relative_to_timecode padsAB [effA, effB] 1700 :=
  ⟨(claim_C1 padsAB [effA, effB] 1700 effA (by simp)).mpr
      (by norm_num [effA, padsAB]),
    (claim_C1 padsAB [effA, effB] 1700 effB (by simp)).mpr
      (by norm_num [effB, padsAB, show ("B" : String) ≠ "A" from by decide])⟩

/-- C7 (amended): a zero-duration effect (`«end» = start`) in the effect list
is included in the active set exactly when `start_at_position - incoming ≤ t ≤
start_at_position + outgoing`; with zero pads this is exactly the single
timecode `t = start_at_position` — it is not excluded. -/
theorem claim_C7 (pads : PadFn) (effects : List Effect) (t : ℚ) (e : Effect)
    (he : e ∈ effects) (hz : e.«end» = e.start) :
    e ∈ get_effects_relative_to_timecode pads effects t ↔
      e.start_at_position - (pads e).1 ≤ t ∧ t ≤ e.start_at_position + (pads e).2 := by
  rw [mem_get_effects_relative_to_timecode pads effects t e he, hz]
  constructor
  · rintro ⟨h1, h2⟩
    exact ⟨h1, by linarith⟩
  · rintro ⟨h1, h2⟩
    exact ⟨h1, by linarith⟩

/-- C7 witness: the zero-duration effect `effZ` with zero pads is active at
`t = start_at_position` (its window degenerates to that single timecode). -/
theorem claim_C7_witness :
    effZ ∈ get_effects_relative_to_timecode padsZero [effZ] effZ.start_at_position ↔
      effZ.start_at_position - (padsZero effZ).1 ≤ effZ.start_at_position ∧
        effZ.start_at_position ≤ effZ.start_at_position + (padsZero effZ).2 :=
  claim_C7 padsZero [effZ] effZ.start_at_position effZ (by simp) (by norm_num [effZ])

/-- C7 counterexample: the claim says a zero-duration effect is never active,
but the inclusive bounds of the query report `effZ` (whose `«end» = start`)
active at `t = start_at_position`. -/
theorem claim_C7_counterexample :
    effZ.«end» = effZ.start ∧
    effZ ∈ get_effects_relative_to_timecode padsZero [effZ] effZ.start_at_position := by
  constructor
  · rfl
  · unfold get_effects_relative_to_timecode
    rw [List.mem_filter]
    refine ⟨by simp, ?_⟩
    simp only [decide_eq_true_eq]
    norm_num [effZ, padsZero]

/-- C8: the demux-pacing delay is monotone non-decreasing in the observed
queue depth, always clamped to `[minDelay, maxDelay]`, and equals the minimum
delay 0 when the queue is empty. -/
theorem claim_C8 :
    (∀ q q' : ℚ, q ≤ q' → calculateDynamicDelay q ≤ calculateDynamicDelay q') ∧
    (∀ q : ℚ, minDelay ≤ calculateDynamicDelay q ∧ calculateDynamicDelay q ≤ maxDelay) ∧
    calculateDynamicDelay 0 = minDelay ∧ minDelay = 0 := by
  refine ⟨fun q q' h => calculateDynamicDelay_mono h, fun q => ⟨?_, ?_⟩, ?_, rfl⟩
  · exact le_min (by norm_num [minDelay, maxDelay]) (le_max_left _ _)
  · exact min_le_left _ _
  · unfold calculateDynamicDelay queueLimit maxDelay minDelay
    norm_num

/-- C8 witness: monotonicity of the delay at the concrete queue depths 3 and
5. -/
theorem claim_C8_witness : calculateDynamicDelay 3 ≤ calculateDynamicDelay 5 :=
  claim_C8.1 3 5 (by norm_num)

/-- C9: the decoder's buffer-lookup key is the effect-relative media time
`timecode - start_at_position + start`; shifting an effect along the timeline
by `d` (same trim) and asking at `t + d` yields the same key as the original
effect at `t`, for both the decoder's key and the compositor's seconds-valued
clock. -/
theorem claim_C9 (e : Effect) (t d : ℚ) :
    effect_relative_time (shift_on_timeline e d) (t + d) = effect_relative_time e t ∧
    get_effect_current_time_relative_to_timecode (shift_on_timeline e d) (t + d) =
      get_effect_current_time_relative_to_timecode e t := by
  unfold effect_relative_time get_effect_current_time_relative_to_timecode shift_on_timeline
  constructor
  · ring
  · ring

set_option maxRecDepth 100000 in
/-- C2: (i) starting from a constructed buffer (positive timebase and buffer
seconds), the size after any sequence of add/get/clear operations never
exceeds `capacity = ceil(timebase * buffer_seconds)`; (ii) adding a frame with
a new timestamp to a well-formed buffer holding exactly `capacity` entries
closes exactly the oldest-inserted entry and removes exactly it, appending the
new entry, with the size unchanged; (iii) with `timebase = 25` and
`buffer_seconds = 5` the capacity is 125, and inserting 130 sequential frames
leaves exactly frames 6–130 with frames 1–5 closed. -/
theorem claim_C2 :
    (∀ (timebase bufferSeconds : ℚ) (ops : List BufOp),
      0 < timebase → 0 < bufferSeconds →
      (applyOps (mkFrameBuffer timebase bufferSeconds) ops).size ≤
        (mkFrameBuffer timebase bufferSeconds).maxSize) ∧
    (∀ (b : FrameBuffer) (f : DecodedFrame) (oldest : ℚ) (rest : List ℚ)
      (ev : DecodedFrame),
      b.wf → 1 ≤ b.maxSize → b.size = b.maxSize →
      mapHas b.frames f.timestamp = false → b.insertOrder = oldest :: rest →
      mapGet b.frames oldest = some ev →
      (b.add f).2 = [ev] ∧
      (b.add f).1.frames = mapDelete b.frames oldest ++ [(f.timestamp, f)] ∧
      (b.add f).1.insertOrder = rest ++ [f.timestamp] ∧
      (b.add f).1.size = b.size) ∧
    ((mkFrameBuffer 25 5).maxSize = 125 ∧
      ((addFrames (mkFrameBuffer 25 5) (seqFrames 130)).1.frames.map
          fun p => p.2.frame_id) = (List.range 125).map (fun i => i + 6) ∧
      ((addFrames (mkFrameBuffer 25 5) (seqFrames 130)).2.map
          fun f => f.frame_id) = [1, 2, 3, 4, 5] ∧
      (addFrames (mkFrameBuffer 25 5) (seqFrames 130)).1.size = 125) := by
  refine ⟨?_, ?_, ?_⟩
  · intro timebase bufferSeconds ops ht hs
    exact size_applyOps_le wf_mkFrameBuffer (maxSize_mkFrameBuffer_pos ht hs)
  · intro b f oldest rest ev hwf hcap hsize hnew hord hev
    have hfull : b.maxSize ≤ b.frames.length := le_of_eq hsize.symm
    have hadd := add_evict hnew hfull hord hev
    have holdk : oldest ∈ b.frames.map Prod.fst :=
      (hwf.2.2.1 oldest).mpr (by rw [hord]; exact List.mem_cons_self _ _)
    have hlen := length_mapDelete_of_mem hwf.1 holdk
    refine ⟨by rw [hadd], by rw [hadd], by rw [hadd], ?_⟩
    rw [hadd]
    show (mapDelete b.frames oldest ++ [(f.timestamp, f)]).length = b.size
    rw [List.length_append]
    simp only [List.length_cons, List.length_nil]
    unfold FrameBuffer.size
    omega
  · rw [mk255]
    decide

/-- C2 witness: instance of the capacity invariant for the scenario buffer
(`timebase = 25`, `buffer_seconds = 5`) under the empty operation sequence. -/
theorem claim_C2_witness :
    (applyOps (mkFrameBuffer 25 5) []).size ≤ (mkFrameBuffer 25 5).maxSize :=
  claim_C2.1 25 5 [] (by norm_num) (by norm_num)

/-- C10: adding a frame at a timestamp that already has an entry closes
exactly the previously stored frame, replaces that entry with the new frame,
leaves the entry at every other timestamp unchanged, and leaves the size, the
insertion order and the configuration unchanged. -/
theorem claim_C10 (b : FrameBuffer) (f old : DecodedFrame)
    (hold : mapGet b.frames f.timestamp = some old) :
    (b.add f).2 = [old] ∧
    mapGet (b.add f).1.frames f.timestamp = some f ∧
    (∀ k : ℚ, k ≠ f.timestamp → mapGet (b.add f).1.frames k = mapGet b.frames k) ∧
    (b.add f).1.size = b.size ∧
    (b.add f).1.insertOrder = b.insertOrder ∧
    (b.add f).1.maxSize = b.maxSize ∧
    (b.add f).1.tolerance = b.tolerance := by
  have hhas : mapHas b.frames f.timestamp = true := by
    rw [mapHas_iff, ← mapGet_isSome, hold]
    rfl
  have hadd := add_replace hhas
  refine ⟨?_, ?_, ?_, ?_, ?_, ?_, ?_⟩
  · rw [hadd]
    show (mapGet b.frames f.timestamp).toList = [old]
    rw [hold]
    rfl
  · rw [hadd]
    exact mapGet_mapSet_self
  · intro k hk
    rw [hadd]
    exact mapGet_mapSet_other hk
  · rw [hadd]
    exact length_mapSet_of_has hhas
  · rw [hadd]
  · rw [hadd]
  · rw [hadd]

/-- C10 witness: replacing the entry at timestamp 0 of `bufR` closes the old
frame, installs the new one, and leaves the entry at 40 ms, the size and the
insertion order unchanged. -/
theorem claim_C10_witness :
    (bufR.add frNew).2 = [frOld] ∧
    mapGet (bufR.add frNew).1.frames frNew.timestamp = some frNew ∧
    (∀ k : ℚ, k ≠ frNew.timestamp →
      mapGet (bufR.add frNew).1.frames k = mapGet bufR.frames k) ∧
    (bufR.add frNew).1.size = bufR.size ∧
    (bufR.add frNew).1.insertOrder = bufR.insertOrder ∧
    (bufR.add frNew).1.maxSize = bufR.maxSize ∧
    (bufR.add frNew).1.tolerance = bufR.tolerance :=
  claim_C10 bufR frNew frOld (by decide)

/-- C3: (i) the constructed lookup tolerance is half a frame interval
`(1000 / timebase) / 2`, which lies within `[0.5, 1.5] ×` the frame interval;
(ii) when `get` returns a frame, that frame sits at a buffered timestamp
within tolerance of the query and no buffered entry is closer; (iii) `get`
returns the miss value `none` exactly when no buffered entry is within
tolerance — `get` is a total function, it cannot throw or block. -/
theorem claim_C3 :
    (∀ timebase bufferSeconds : ℚ, 0 < timebase →
      (mkFrameBuffer timebase bufferSeconds).tolerance = 1000 / timebase / 2 ∧
      1 / 2 * (1000 / timebase) ≤ (mkFrameBuffer timebase bufferSeconds).tolerance ∧
      (mkFrameBuffer timebase bufferSeconds).tolerance ≤ 3 / 2 * (1000 / timebase)) ∧
    (∀ (b : FrameBuffer) (t : ℚ) (f : DecodedFrame), 0 ≤ b.tolerance →
      b.get t = some f →
      ∃ k, (k, f) ∈ b.frames ∧ |k - t| ≤ b.tolerance ∧
        ∀ p ∈ b.frames, |k - t| ≤ |p.1 - t|) ∧
    (∀ (b : FrameBuffer) (t : ℚ), 0 ≤ b.tolerance →
      (b.get t = none ↔ ∀ p ∈ b.frames, ¬(|p.1 - t| ≤ b.tolerance))) := by
  refine ⟨?_, ?_, ?_⟩
  · intro timebase bufferSeconds ht
    have hpos : 0 < 1000 / timebase := by positivity
    refine ⟨rfl, ?_, ?_⟩
    · show 1 / 2 * (1000 / timebase) ≤ 1000 / timebase / 2
      linarith
    · show 1000 / timebase / 2 ≤ 3 / 2 * (1000 / timebase)
      linarith
  · intro b t f htol h
    exact get_eq_some_spec htol h
  · intro b t htol
    exact get_eq_none_iff htol

/-- C3 witness: instance of the miss characterisation on the concrete buffer
holding frames at 0 ms and 1000 ms, queried at 500 ms. -/
theorem claim_C3_witness :
    bufC4.get 500 = none ↔ ∀ p ∈ bufC4.frames, ¬(|p.1 - 500| ≤ bufC4.tolerance) :=
  claim_C3.2.2 bufC4 500 (by norm_num [bufC4])

theorem seek_effect_eq (timebase : ℚ) (st : EffectWorkerState) (e : Effect) (t : ℚ) :
    seek_effect timebase (some st) e t =
      match st.buffer.get (effect_relative_time e t) with
      | some _ => { restarts := 0, state := st, closed := [] }
      | none =>
        { restarts := 1
          state := initWorkerForEffect timebase (st.workerGeneration + 1) t
          closed := st.buffer.clear.2 } := rfl

/-- C4 (amended): for an effect with an existing decode context, a seek keeps
the context (zero restarts, state and buffer untouched) iff some buffered
entry lies within the lookup tolerance of the effect-relative target; a seek
that misses clears the buffer (closing every buffered frame) and restarts
exactly once with a fresh buffer.  The kept/restart decision is the
tolerance-window cache lookup, not membership of the target in
`[buffered_min, buffered_max + lookahead]`. -/
theorem claim_C4 (timebase : ℚ) (st : EffectWorkerState) (e : Effect) (t : ℚ) :
    ((seek_effect timebase (some st) e t).restarts = 0 ↔
      (st.buffer.get (effect_relative_time e t)).isSome = true) ∧
    (seek_effect timebase (some st) e t).restarts ≤ 1 ∧
    ((st.buffer.get (effect_relative_time e t)).isSome = true →
      (seek_effect timebase (some st) e t).state = st ∧
      (seek_effect timebase (some st) e t).closed = []) ∧
    (st.buffer.get (effect_relative_time e t) = none →
      (seek_effect timebase (some st) e t).restarts = 1 ∧
      (seek_effect timebase (some st) e t).state.buffer = mkFrameBuffer timebase 2 ∧
      (seek_effect timebase (some st) e t).closed = st.buffer.frames.map Prod.snd) ∧
    (0 ≤ st.buffer.tolerance →
      ((seek_effect timebase (some st) e t).restarts = 0 ↔
        ∃ p ∈ st.buffer.frames, |p.1 - effect_relative_time e t| ≤ st.buffer.tolerance)) := by
  rw [seek_effect_eq]
  cases hget : st.buffer.get (effect_relative_time e t) with
  | some f =>
    refine ⟨by simp, by simp, fun _ => ⟨rfl, rfl⟩, by simp, fun htol => ?_⟩
    constructor
    · intro _
      obtain ⟨k, hk, hd, _⟩ := get_eq_some_spec htol hget
      exact ⟨(k, f), hk, hd⟩
    · intro _
      rfl
  | none =>
    refine ⟨by simp, by simp, by simp, fun _ => ⟨rfl, rfl, rfl⟩, fun htol => ?_⟩
    constructor
    · intro h
      exact absurd h (by simp)
    · rintro ⟨p, hp, hd⟩
      exact absurd hd ((get_eq_none_iff htol).mp hget p hp)

/-- C4 witness: instance of the amended seek policy on the concrete state
over `bufC4` at target 500 ms. -/
theorem claim_C4_witness :
    ((seek_effect 25 (some stC4) effV 500).restarts = 0 ↔
      (stC4.buffer.get (effect_relative_time effV 500)).isSome = true) ∧
    (seek_effect 25 (some stC4) effV 500).restarts ≤ 1 :=
  ⟨(claim_C4 25 stC4 effV 500).1, (claim_C4 25 stC4 effV 500).2.1⟩

/-- C4 counterexample: the buffer holds frames at 0 ms and 1000 ms
(`buffered_min = 0`, `buffered_max = 1000`), the effect-relative seek target
500 ms lies inside `[buffered_min, buffered_max]` (hence inside
`[buffered_min, buffered_max + lookahead]` for every lookahead `≥ 0`), yet
`Decoder.seek` tears the context down and restarts: no buffered entry is
within the 20 ms tolerance of 500 ms. -/
theorem claim_C4_counterexample :
    bufC4.bufferedMin = some 0 ∧
    bufC4.bufferedMax = some 1000 ∧
    effect_relative_time effV 500 = 500 ∧
    ((0 : ℚ) ≤ 500 ∧ (500 : ℚ) ≤ 1000) ∧
    (seek_effect 25 (some stC4) effV 500).restarts = 1 := by
  have hkey : effect_relative_time effV 500 = 500 := by
    unfold effect_relative_time effV
    norm_num
  have hget : stC4.buffer.get (effect_relative_time effV 500) = none := by
    rw [hkey]
    rw [get_eq_none_iff (by norm_num [stC4, bufC4])]
    intro p hp
    have hp2 : p = ((0 : ℚ), fr0) ∨ p = ((1000 : ℚ), fr1000) := by
      simpa [stC4, bufC4] using hp
    rcases hp2 with rfl | rfl
    · rw [show |(0 : ℚ) - 500| = 500 from by rw [abs_of_nonpos] <;> norm_num]
      norm_num [stC4, bufC4]
    · rw [show |(1000 : ℚ) - 500| = 500 from by rw [abs_of_nonneg] <;> norm_num]
      norm_num [stC4, bufC4]
  refine ⟨by decide, by decide, hkey, by norm_num, ?_⟩
  rw [seek_effect_eq, hget]

/-- C5 (amended): during playback frame retrieval
(`Decoder.draw_available_frames`) the worker state is never modified — in
particular no number of consecutive cache misses tears down or restarts the
decode context, and a run of misses just yields skipped draws; the source
keeps no miss counter and recovery happens only through `seek`. -/
theorem claim_C5 (st : EffectWorkerState) (e : Effect) (tss : List ℚ) :
    (playback_steps st e tss).2 = st ∧
    ((∀ ts ∈ tss, st.buffer.get (ts - e.start_at_position + e.start) = none) →
      (playback_steps st e tss).1 = List.replicate tss.length DrawAction.skipped) := by
  refine ⟨playback_steps_state, fun hmiss => ?_⟩
  rw [playback_steps_actions, List.eq_replicate_iff]
  refine ⟨by simp, ?_⟩
  intro a ha
  rcases List.mem_map.mp ha with ⟨ts, hts, rfl⟩
  unfold draw_available_frame_step
  rw [hmiss ts hts]

/-- C5 witness: three consecutive misses on an empty buffer leave the worker
state untouched and produce three skipped draws. -/
theorem claim_C5_witness :
    (playback_steps stEmpty effV [0, 1, 2]).2 = stEmpty ∧
    (playback_steps stEmpty effV [0, 1, 2]).1 = List.replicate 3 DrawAction.skipped := by
  have h := claim_C5 stEmpty effV [0, 1, 2]
  exact ⟨h.1, by simpa using h.2 fun ts _ => rfl⟩

set_option maxRecDepth 40000 in
/-- C5 counterexample: 100 consecutive cache misses leave the decode context
exactly as it was — no threshold ever forces a teardown or restart during
playback retrieval, contradicting the claimed miss-counter recovery. -/
theorem claim_C5_counterexample :
    playback_steps stEmpty effV ((List.range 100).map fun n => ((n : ℕ) : ℚ)) =
      (List.replicate 100 DrawAction.skipped, stEmpty) := by
  decide

/-- C6 (amended): export acquisition never aborts and records nothing: every
active video effect is processed in order; each either has its frame drawn (a
poll hit within the timeout) or, on timeout, is skipped with one logged
warning while acquisition continues with the remaining effects; the final
render is always reached and the set of missing timecodes recorded for an
end-of-export report is empty — the source aggregates nothing. -/
theorem claim_C6 (pads : PadFn) (polls : Effect → List FrameBuffer)
    (effects : List Effect) (t : ℚ) :
    (get_and_draw_decoded_frame pads polls effects t).missingRecorded = [] ∧
    (get_and_draw_decoded_frame pads polls effects t).rendered = true ∧
    (get_and_draw_decoded_frame pads polls effects t).drawn =
      (sort_effects_by_track ((get_effects_relative_to_timecode pads effects t).filter
        fun e => decide (e.kind = EffectKind.video))).filterMap (fun e =>
          if (waitForFrame (polls e) (t - e.start_at_position + e.start)).isSome then
            some (e.id, t - e.start_at_position + e.start)
          else none) ∧
    (get_and_draw_decoded_frame pads polls effects t).timeoutWarnings =
      (sort_effects_by_track ((get_effects_relative_to_timecode pads effects t).filter
        fun e => decide (e.kind = EffectKind.video))).filterMap (fun e =>
          if (waitForFrame (polls e) (t - e.start_at_position + e.start)).isSome then none
          else some (t - e.start_at_position + e.start)) := by
  unfold get_and_draw_decoded_frame
  dsimp only
  rw [export_foldl_spec]
  simp

theorem filter_effV :
    (get_effects_relative_to_timecode padsZero [effV] 10000).filter
      (fun e => decide (e.kind = EffectKind.video)) = [effV] := by
  have h1 : get_effects_relative_to_timecode padsZero [effV] 10000 = [effV] := by
    unfold get_effects_relative_to_timecode
    have hc : (decide (effV.start_at_position - (padsZero effV).1 ≤ (10000 : ℚ) ∧
        (10000 : ℚ) ≤ effV.start_at_position + (effV.«end» - effV.start) +
          (padsZero effV).2)) = true := by
      simp only [decide_eq_true_eq]
      norm_num [effV, padsZero]
    simp only [List.filter_cons, hc, if_true, List.filter_nil]
  rw [h1]
  rfl

/-- C6 counterexample: with one active video effect at `t = 10000` ms and
every poll missing (the full timeout elapses), the timeout produces exactly
one warning and the acquisition completes — but the list of timecodes
recorded as missing for the end-of-export report has length 0, not 1: no
aggregation or report exists in the source. -/
theorem claim_C6_counterexample :
    (get_and_draw_decoded_frame padsZero pollsEmpty [effV] 10000).timeoutWarnings.length = 1 ∧
    (get_and_draw_decoded_frame padsZero pollsEmpty [effV] 10000).missingRecorded.length = 0 ∧
    (get_and_draw_decoded_frame padsZero pollsEmpty [effV] 10000).rendered = true := by
  have hw : waitForFrame (pollsEmpty effV)
      ((10000 : ℚ) - effV.start_at_position + effV.start) = none :=
    waitForFrame_replicate_empty 500 _
  unfold get_and_draw_decoded_frame
  dsimp only
  rw [filter_effV]
  rw [show sort_effects_by_track [effV] = [effV] from
    List.mergeSort_singleton effV]
  rw [List.foldl_cons, List.foldl_nil]
  unfold export_step
  dsimp only
  rw [hw]
  simp

end AlphaX
